import Mathlib

/-!
Verification of the RocksDB store adapter (`faust/stores/rocksdb.py`).

The adapter is shallowly embedded: raw key/value byte strings are lists of
naturals, the embedded engine's contents are an association list kept in
ascending lexicographic key order (RocksDB iterates keys in ascending byte
order), and the `Store` record carries the engine configuration, the lazily
opened handle (`_db`, `None` in Python = `Option.none` here) and the on-disk
directory state at the store's path.
-/

namespace Faust

/-- Raw key/value byte strings: opaque byte sequences. -/
abbrev Bytes := List Nat

/-- Strict lexicographic order on byte strings: the byte order RocksDB uses
for its keys. -/
def bytesLt : Bytes → Bytes → Bool
  | _, [] => false
  | [], _ :: _ => true
  | a :: as, b :: bs =>
      if a < b then true
      else if a = b then bytesLt as bs
      else false

theorem bytesLt_irrefl (a : Bytes) : bytesLt a a = false := by
  induction a with
  | nil => rfl
  | cons x xs ih => simp [bytesLt, ih]

theorem bytesLt_ne {a b : Bytes} (h : bytesLt a b = true) : a ≠ b := by
  intro hab
  subst hab
  rw [bytesLt_irrefl] at h
  exact Bool.false_ne_true h

theorem bytesLt_cons_iff {x y : Nat} {xs ys : Bytes} :
    bytesLt (x :: xs) (y :: ys) = true ↔
      x < y ∨ (x = y ∧ bytesLt xs ys = true) := by
  simp only [bytesLt]
  by_cases h1 : x < y
  · simp [h1]
  · by_cases h2 : x = y
    · simp [h1, h2]
    · simp [h1, h2]

theorem bytesLt_trans :
    ∀ {a b c : Bytes}, bytesLt a b = true → bytesLt b c = true →
      bytesLt a c = true := by
  intro a
  induction a with
  | nil =>
      intro b c hab hbc
      cases c with
      | nil =>
          cases b with
          | nil => exact hab
          | cons y ys => simp [bytesLt] at hbc
      | cons z zs => simp [bytesLt]
  | cons x xs ih =>
      intro b c hab hbc
      cases b with
      | nil => simp [bytesLt] at hab
      | cons y ys =>
          cases c with
          | nil => simp [bytesLt] at hbc
          | cons z zs =>
              rw [bytesLt_cons_iff] at hab hbc ⊢
              rcases hab with hab | ⟨rfl, hab⟩
              · rcases hbc with hbc | ⟨rfl, hbc⟩
                · exact Or.inl (Nat.lt_trans hab hbc)
                · exact Or.inl hab
              · rcases hbc with hbc | ⟨rfl, hbc⟩
                · exact Or.inl hbc
                · exact Or.inr ⟨rfl, ih hab hbc⟩

theorem bytesLt_total :
    ∀ {a b : Bytes}, bytesLt a b = false → bytesLt b a = false → a = b := by
  intro a
  induction a with
  | nil =>
      intro b hab _
      cases b with
      | nil => rfl
      | cons y ys => simp [bytesLt] at hab
  | cons x xs ih =>
      intro b hab hba
      cases b with
      | nil => simp [bytesLt] at hba
      | cons y ys =>
          simp only [bytesLt] at hab hba
          by_cases hxy : x < y
          · simp [hxy] at hab
          · simp [hxy] at hab
            by_cases hyx : y < x
            · simp [hyx] at hba
            · simp [hyx] at hba
              have hxy' : x = y := Nat.le_antisymm
                (Nat.le_of_not_lt hyx) (Nat.le_of_not_lt hxy)
              subst hxy'
              simp at hab hba
              rw [ih hab hba]

theorem bytesLt_of_not_lt_of_ne {a b : Bytes}
    (h1 : bytesLt a b = false) (h2 : a ≠ b) : bytesLt b a = true := by
  cases hba : bytesLt b a with
  | true => rfl
  | false => exact absurd (bytesLt_total h1 hba) h2

/-!
The embedded engine.  RocksDB keeps one value per key and iterates entries in
ascending key byte order, so its contents are modelled as an association list
sorted strictly by `bytesLt` on the keys.  `dbPut`, `dbGet`, `dbDel` model the
engine's `put`, `get`, `delete`; a `WriteBatch` is the list of accumulated
`put` mutations and `dbWrite` commits one in a single step.
-/

/-- Contents of one embedded engine instance: entries in ascending key order. -/
abbrev DB := List (Bytes × Bytes)

/-- Engine `put`: insert or overwrite, keeping the ascending key order. -/
def dbPut : DB → Bytes → Bytes → DB
  | [], k, v => [(k, v)]
  | (k1, v1) :: rest, k, v =>
      if bytesLt k k1 = true then (k, v) :: (k1, v1) :: rest
      else if k = k1 then (k, v) :: rest
      else (k1, v1) :: dbPut rest k v

/-- Engine `get`: `some` stored value, or `none` when the key is absent. -/
def dbGet : DB → Bytes → Option Bytes
  | [], _ => none
  | (k1, v1) :: rest, k => if k = k1 then some v1 else dbGet rest k

/-- Engine `delete`: removes the key if present; a no-op otherwise. -/
def dbDel : DB → Bytes → DB
  | [], _ => []
  | (k1, v1) :: rest, k => if k = k1 then rest else (k1, v1) :: dbDel rest k

/-- A `rocksdb.WriteBatch` holding accumulated `put` mutations in order. -/
abbrev WriteBatch := List (Bytes × Bytes)

/-- Engine `write`: commits a whole batch of puts in one step. -/
def dbWrite (db : DB) (w : WriteBatch) : DB :=
  w.foldl (fun d p => dbPut d p.1 p.2) db

/-- The sortedness invariant of engine contents: keys strictly ascending. -/
def dbSorted (db : DB) : Prop :=
  db.Pairwise (fun p q => bytesLt p.1 q.1 = true)

instance (db : DB) : Decidable (dbSorted db) :=
  inferInstanceAs (Decidable (db.Pairwise _))

theorem dbGet_dbPut_self (db : DB) (k v : Bytes) :
    dbGet (dbPut db k v) k = some v := by
  induction db with
  | nil => simp [dbPut, dbGet]
  | cons p rest ih =>
      obtain ⟨k1, v1⟩ := p
      simp only [dbPut]
      by_cases h1 : bytesLt k k1 = true
      · simp [h1, dbGet]
      · simp only [h1, if_false]
        by_cases h2 : k = k1
        · simp [h2, dbGet]
        · simp [h2, dbGet, ih]

theorem dbGet_dbPut_other (db : DB) (k v k' : Bytes) (h : k' ≠ k) :
    dbGet (dbPut db k v) k' = dbGet db k' := by
  induction db with
  | nil => simp [dbPut, dbGet, h]
  | cons p rest ih =>
      obtain ⟨k1, v1⟩ := p
      simp only [dbPut]
      by_cases h1 : bytesLt k k1 = true
      · simp [h1, dbGet, h]
      · simp only [h1, if_false]
        by_cases h2 : k = k1
        · subst h2
          simp [dbGet, h]
        · simp only [h2, if_false, dbGet]
          by_cases h3 : k' = k1
          · simp [h3]
          · simp [h3, ih]

/-- Every entry of `dbPut db k v` is either the new pair or an old entry. -/
theorem mem_dbPut (db : DB) (k v : Bytes) :
    ∀ p ∈ dbPut db k v, p = (k, v) ∨ p ∈ db := by
  induction db with
  | nil => simp [dbPut]
  | cons q rest ih =>
      obtain ⟨k1, v1⟩ := q
      intro p hp
      simp only [dbPut] at hp
      by_cases h1 : bytesLt k k1 = true
      · rw [if_pos h1] at hp
        rcases List.mem_cons.mp hp with h | hp'
        · exact Or.inl h
        · exact Or.inr hp'
      · rw [if_neg h1] at hp
        by_cases h2 : k = k1
        · rw [if_pos h2] at hp
          rcases List.mem_cons.mp hp with h | hp'
          · exact Or.inl h
          · exact Or.inr (List.mem_cons_of_mem _ hp')
        · rw [if_neg h2] at hp
          rcases List.mem_cons.mp hp with h | hp'
          · exact Or.inr (by rw [h]; exact List.mem_cons_self _ _)
          · rcases ih p hp' with h | h
            · exact Or.inl h
            · exact Or.inr (List.mem_cons_of_mem _ h)

/-- `dbPut` preserves the ascending-key invariant. -/
theorem dbSorted_dbPut {db : DB} (k v : Bytes) (h : dbSorted db) :
    dbSorted (dbPut db k v) := by
  induction db with
  | nil =>
      rw [dbSorted]
      simp [dbPut]
  | cons q rest ih =>
      obtain ⟨k1, v1⟩ := q
      rw [dbSorted, List.pairwise_cons] at h
      obtain ⟨hhead, htail⟩ := h
      rw [dbSorted]
      simp only [dbPut]
      by_cases h1 : bytesLt k k1 = true
      · rw [if_pos h1, List.pairwise_cons]
        refine ⟨?_, List.Pairwise.cons hhead htail⟩
        intro p hp
        rcases List.mem_cons.mp hp with rfl | hp'
        · exact h1
        · exact bytesLt_trans h1 (hhead p hp')
      · rw [if_neg h1]
        by_cases h2 : k = k1
        · rw [if_pos h2, List.pairwise_cons]
          refine ⟨?_, htail⟩
          intro p hp
          have := hhead p hp
          rw [h2]
          exact this
        · rw [if_neg h2, List.pairwise_cons]
          refine ⟨?_, ih htail⟩
          intro p hp
          rcases mem_dbPut rest k v p hp with rfl | hp'
          · exact bytesLt_of_not_lt_of_ne (Bool.eq_false_iff.mpr h1) h2
          · exact hhead p hp'

theorem dbSorted_nil : dbSorted [] := List.Pairwise.nil

/-- `dbWrite` preserves the ascending-key invariant. -/
theorem dbSorted_dbWrite {db : DB} (w : WriteBatch) (h : dbSorted db) :
    dbSorted (dbWrite db w) := by
  induction w generalizing db with
  | nil => exact h
  | cons p w ih => exact ih (dbSorted_dbPut p.1 p.2 h)

/-- A key is found exactly when it occurs among the entries' keys. -/
theorem dbGet_isSome_iff (db : DB) (k : Bytes) :
    (dbGet db k).isSome = true ↔ k ∈ db.map Prod.fst := by
  induction db with
  | nil => simp [dbGet]
  | cons p rest ih =>
      obtain ⟨k1, v1⟩ := p
      simp only [dbGet, List.map_cons, List.mem_cons]
      by_cases h : k = k1
      · simp [h]
      · simp [h, ih]

/-- In a sorted database the head's key is absent from the tail. -/
theorem dbGet_tail_none {k1 : Bytes} {v1 : Bytes} {rest : DB}
    (h : dbSorted ((k1, v1) :: rest)) : dbGet rest k1 = none := by
  rw [dbSorted, List.pairwise_cons] at h
  cases hg : dbGet rest k1 with
  | none => rfl
  | some v =>
      have hmem : k1 ∈ rest.map Prod.fst := by
        rw [← dbGet_isSome_iff, hg]
        rfl
      rcases List.mem_map.mp hmem with ⟨p, hp, hpk⟩
      have := h.1 p hp
      rw [hpk] at this
      exact absurd rfl (bytesLt_ne this)

/-- Two sorted databases agreeing on every lookup are equal. -/
theorem dbSorted_ext {d1 d2 : DB} (h1 : dbSorted d1) (h2 : dbSorted d2)
    (h : ∀ k, dbGet d1 k = dbGet d2 k) : d1 = d2 := by
  induction d1 generalizing d2 with
  | nil =>
      cases d2 with
      | nil => rfl
      | cons p rest =>
          obtain ⟨k2, v2⟩ := p
          have := h k2
          simp [dbGet] at this
  | cons p t1 ih =>
      obtain ⟨k1, v1⟩ := p
      cases d2 with
      | nil =>
          have := h k1
          simp [dbGet] at this
      | cons q t2 =>
          obtain ⟨k2, v2⟩ := q
          have hk : k1 = k2 := by
            by_contra hne
            have ha : dbGet ((k2, v2) :: t2) k1 = some v1 := by
              rw [← h k1]
              simp [dbGet]
            have hb : dbGet ((k1, v1) :: t1) k2 = some v2 := by
              rw [h k2]
              simp [dbGet]
            simp only [dbGet, hne, if_false] at ha
            have hne' : k2 ≠ k1 := fun hx => hne hx.symm
            simp only [dbGet, hne', if_false] at hb
            have ha' : k1 ∈ t2.map Prod.fst := by
              rw [← dbGet_isSome_iff, ha]
              rfl
            have hb' : k2 ∈ t1.map Prod.fst := by
              rw [← dbGet_isSome_iff, hb]
              rfl
            rw [dbSorted, List.pairwise_cons] at h1 h2
            rcases List.mem_map.mp ha' with ⟨pa, hpa, hpak⟩
            rcases List.mem_map.mp hb' with ⟨pb, hpb, hpbk⟩
            have l1 : bytesLt k1 k2 = true := by
              have := h1.1 pb hpb
              rw [hpbk] at this
              exact this
            have l2 : bytesLt k2 k1 = true := by
              have := h2.1 pa hpa
              rw [hpak] at this
              exact this
            have := bytesLt_trans l1 l2
            rw [bytesLt_irrefl] at this
            exact Bool.false_ne_true this
          subst hk
          have hv : v1 = v2 := by
            have := h k1
            simp [dbGet] at this
            exact this
          subst hv
          have htails : ∀ k, dbGet t1 k = dbGet t2 k := by
            intro k
            by_cases hk : k = k1
            · subst hk
              rw [dbGet_tail_none h1, dbGet_tail_none h2]
            · have := h k
              simp only [dbGet, hk, if_false] at this
              exact this
          rw [ih (List.Pairwise.sublist (List.sublist_cons_self _ _) h1)
            (List.Pairwise.sublist (List.sublist_cons_self _ _) h2) htails]

/-- The value the last `put` of `w` assigns to `k`, if any. -/
def lastVal : WriteBatch → Bytes → Option Bytes
  | [], _ => none
  | p :: w, k =>
      match lastVal w k with
      | some v => some v
      | none => if p.1 = k then some p.2 else none

theorem dbGet_dbWrite (db : DB) (w : WriteBatch) (k : Bytes) :
    dbGet (dbWrite db w) k =
      match lastVal w k with
      | some v => some v
      | none => dbGet db k := by
  induction w generalizing db with
  | nil => rfl
  | cons p w ih =>
      show dbGet (dbWrite (dbPut db p.1 p.2) w) k = _
      rw [ih]
      simp only [lastVal]
      cases lastVal w k with
      | some v => rfl
      | none =>
          by_cases hk : p.1 = k
          · subst hk
            rw [if_pos rfl, dbGet_dbPut_self]
          · rw [if_neg hk, dbGet_dbPut_other db p.1 p.2 k
              (fun hx => hk hx.symm)]

/-- Committing the same write batch twice leaves the contents of the first
commit unchanged: last-writer-wins per key makes replay idempotent. -/
theorem dbWrite_idem (db : DB) (w : WriteBatch) (h : dbSorted db) :
    dbWrite (dbWrite db w) w = dbWrite db w := by
  have hs : dbSorted (dbWrite db w) := dbSorted_dbWrite w h
  refine dbSorted_ext (dbSorted_dbWrite w hs) hs ?_
  intro k
  rw [dbGet_dbWrite, dbGet_dbWrite]
  cases lastVal w k <;> rfl

/-!
Path derivation.  `filename` is `Path(self.url.path).with_suffix('.db')`;
`path` is `self.app.tabledir / self.filename`.  Python's
`PurePath.with_suffix` replaces the name's existing dotted suffix (the part
from the last `'.'`, provided that dot is neither the first nor the last
character of the name) and appends when there is none; `Path.__truediv__`
discards the left operand when the right one is absolute.
-/

/-- Start index of the pathlib suffix of a file name (`name.rfind('.')`
accepted only when `0 < i < len(name) - 1`), `none` when the name has no
suffix. -/
def pySuffixStart (name : List Char) : Option Nat :=
  match ((List.range name.length).filter
      (fun i => name.getD i ' ' = '.')).getLast? with
  | none => none
  | some i => if 0 < i ∧ i < name.length - 1 then some i else none

/-- Python `PurePath('name').suffix`. -/
def pySuffix (name : String) : String :=
  match pySuffixStart name.data with
  | none => ""
  | some i => String.mk (name.data.drop i)

/-- Python `PurePath('name').with_suffix(suffix)` for a one-component path:
replaces the existing suffix, or appends when there is none. -/
def pyWithSuffix (name : String) (suffix : String) : String :=
  match pySuffixStart name.data with
  | none => name ++ suffix
  | some i => String.mk (name.data.take i) ++ suffix

/-- Python `pathlib` `/` join: an absolute right operand replaces the left. -/
def pathJoin (base child : String) : String :=
  if child.startsWith "/" then child else base ++ "/" ++ child

/-!
The store itself.  `Store.__init__` keeps seven integer tuning values, fixes
`url.path` to the table name when the URL carried no path, and leaves the
handle slot `_db` as `None`.  The `db` property opens lazily; `_options()`
derives the engine configuration (flattened here: the block-based table
factory's bloom-filter bits-per-key and the two LRU cache sizes become plain
fields).  A `Handle` models one live `rocksdb.DB` instance: `hid` tags which
open created it, so "returns the cached handle without reopening" is
expressible.
-/

/-- The derived `rocksdb.Options` of `_options()`. -/
structure Options where
  create_if_missing : Bool
  max_open_files : Nat
  write_buffer_size : Nat
  max_write_buffer_number : Nat
  target_file_size_base : Nat
  bloom_filter_bits_per_key : Nat
  block_cache_size : Nat
  block_cache_compressed_size : Nat
deriving DecidableEq

/-- One live engine instance: where and with what options it was opened,
which open created it, and its contents. -/
structure Handle where
  hid : Nat
  path : String
  opts : Options
  contents : DB
deriving DecidableEq

/-- The store's state: the engine tuning values fixed at construction, the
resolved naming, the lazily opened handle (`_db`, Python `None` =
`Option.none`), the on-disk directory at the store's path (`none` =
directory absent) and a counter of engine opens performed so far. -/
structure Store where
  max_open_files : Nat
  write_buffer_size : Nat
  max_write_buffer_number : Nat
  target_file_size_base : Nat
  block_cache_size : Nat
  block_cache_compressed_size : Nat
  bloom_filter_size : Nat
  url_path : String
  tabledir : String
  _db : Option Handle
  disk : Option DB
  openCount : Nat
deriving DecidableEq

namespace Store

/-- `Store.__init__`: records the tuning values, appends the table name to a
URL that carried no path, and leaves `_db = None`.  The on-disk directory is
whatever already exists at the path; construction does not touch it. -/
def init (url_path table_name tabledir : String)
    (max_open_files write_buffer_size max_write_buffer_number
      target_file_size_base block_cache_size block_cache_compressed_size
      bloom_filter_size : Nat) (disk : Option DB) : Store :=
  { max_open_files := max_open_files
    write_buffer_size := write_buffer_size
    max_write_buffer_number := max_write_buffer_number
    target_file_size_base := target_file_size_base
    block_cache_size := block_cache_size
    block_cache_compressed_size := block_cache_compressed_size
    bloom_filter_size := bloom_filter_size
    url_path := if url_path = "" then table_name else url_path
    tabledir := tabledir
    _db := none
    disk := disk
    openCount := 0 }

/-- The `filename` property: `Path(self.url.path).with_suffix('.db')`. -/
def filename (s : Store) : String := pyWithSuffix s.url_path ".db"

/-- The `path` property: `self.app.tabledir / self.filename`. -/
def path (s : Store) : String := pathJoin s.tabledir s.filename

/-- `_options()`: the engine configuration derived from the stored tuning
values, with `create_if_missing=True`. -/
def options (s : Store) : Options :=
  { create_if_missing := true
    max_open_files := s.max_open_files
    write_buffer_size := s.write_buffer_size
    max_write_buffer_number := s.max_write_buffer_number
    target_file_size_base := s.target_file_size_base
    bloom_filter_bits_per_key := s.bloom_filter_size
    block_cache_size := s.block_cache_size
    block_cache_compressed_size := s.block_cache_compressed_size }

/-- `_open_db()`: `rocksdb.DB(str(self.path), self._options())` on the
success path.  `create_if_missing` creates the directory when absent, so the
opened contents are the on-disk contents, empty for a fresh directory. -/
def _open_db (s : Store) : Handle :=
  { hid := s.openCount
    path := s.path
    opts := s.options
    contents := s.disk.getD [] }

/-- The `db` property: opens the engine on first access and caches the
handle; later accesses return the cached handle unchanged. -/
def db (s : Store) : Store × Handle :=
  match s._db with
  | some h => (s, h)
  | none =>
      ({ s with
          _db := some s._open_db
          disk := some (s.disk.getD [])
          openCount := s.openCount + 1 }, s._open_db)

/-- Commit new contents through the open handle; the embedded engine also
persists them in the store's directory. -/
def withContents (s : Store) (d : DB) : Store :=
  match s._db with
  | some h => { s with _db := some { h with contents := d }, disk := some d }
  | none => s

/-- The observable contents of a store: the open handle's contents, else
what the next open would read from disk (empty when the directory is
absent). -/
def contents (s : Store) : DB :=
  match s._db with
  | some h => h.contents
  | none => s.disk.getD []

/-- `_get`: point lookup through the lazily opened handle. -/
def _get (s : Store) (key : Bytes) : Store × Option Bytes :=
  let p := s.db
  (p.1, dbGet p.2.contents key)

/-- `_set`: unconditional upsert through the lazily opened handle. -/
def _set (s : Store) (key value : Bytes) : Store :=
  let p := s.db
  p.1.withContents (dbPut p.2.contents key value)

/-- `_del`: delete through the lazily opened handle. -/
def _del (s : Store) (key : Bytes) : Store :=
  let p := s.db
  p.1.withContents (dbDel p.2.contents key)

/-- `_contains`: asks `db.key_may_exist(key)[0]` first and only on a positive
answer checks `db.get(key) is not None`.  The engine's approximate-membership
probe is passed in as a function. -/
def _contains (s : Store) (key_may_exist : Bytes → Bool) (key : Bytes) :
    Store × Bool :=
  let p := s.db
  if key_may_exist key then (p.1, (dbGet p.2.contents key).isSome)
  else (p.1, false)

/-- `_size`: drains a keys-only iteration and counts. -/
def _size (s : Store) : Store × Nat :=
  let p := s.db
  (p.1, (p.2.contents.map Prod.fst).length)

/-- `_iterkeys`: the keys-only iteration after `seek_to_first()`. -/
def _iterkeys (s : Store) : Store × List Bytes :=
  let p := s.db
  (p.1, p.2.contents.map Prod.fst)

/-- `_itervalues`: the values-only iteration after `seek_to_first()`. -/
def _itervalues (s : Store) : Store × List Bytes :=
  let p := s.db
  (p.1, p.2.contents.map Prod.snd)

/-- `_iteritems`: the key/value iteration after `seek_to_first()`. -/
def _iteritems (s : Store) : Store × List (Bytes × Bytes) :=
  let p := s.db
  (p.1, p.2.contents)

end Store

/-- One changelog event's message: raw key and value bytes. -/
structure Message where
  key : Bytes
  value : Bytes
deriving DecidableEq

/-- One changelog event as consumed by `apply_changelog_batch`. -/
structure EventT where
  message : Message
deriving DecidableEq

namespace Store

/-- `apply_changelog_batch`: accumulates `w.put(event.message.key,
event.message.value)` over the batch into one `WriteBatch` and commits it
with a single `self.db.write(w)`.  The `to_key`/`to_value` parameters are
accepted but never applied by the source. -/
def apply_changelog_batch (s : Store) (batch : List EventT)
    (to_key : Bytes → Bytes) (to_value : Bytes → Bytes) : Store :=
  let w : WriteBatch := batch.foldl
    (fun w event => w ++ [(event.message.key, event.message.value)]) []
  let p := s.db
  p.1.withContents (dbWrite p.2.contents w)

/-- Modelled from the spec: `apply_changelog_batch` as §4.4 words it,
"applies the two transform functions to derive final key/value bytes for
each" record before committing the single batch.  Stated only to compare
with the source's behaviour. -/
def apply_changelog_batch_spec (s : Store) (batch : List EventT)
    (to_key : Bytes → Bytes) (to_value : Bytes → Bytes) : Store :=
  let w : WriteBatch := batch.foldl
    (fun w event =>
      w ++ [(to_key event.message.key, to_value event.message.value)]) []
  let p := s.db
  p.1.withContents (dbWrite p.2.contents w)

end Store

/-- Python-level errors that `reset_state` can meet or raise. -/
inductive PyError where
  | fileNotFoundError
  | other (msg : String)
deriving DecidableEq

/-- `shutil.rmtree` on the store's directory: raises `FileNotFoundError`
when the directory does not exist, otherwise removes the whole tree. -/
def rmtree (disk : Option DB) : Except PyError (Option DB) :=
  match disk with
  | none => Except.error PyError.fileNotFoundError
  | some _ => Except.ok none

namespace Store

/-- `reset_state` with raising made explicit: sets `_db = None`, then runs
`shutil.rmtree(self.path.absolute())` inside `suppress(FileNotFoundError)`,
so a missing directory is swallowed and anything else propagates. -/
def reset_stateE (s : Store) : Except PyError Store :=
  let s1 : Store := { s with _db := none }
  match rmtree s1.disk with
  | Except.ok d => Except.ok { s1 with disk := d }
  | Except.error PyError.fileNotFoundError => Except.ok s1
  | Except.error e => Except.error e

/-- `reset_state` as the always-succeeding state transformer it is: the
handle reference is discarded and the directory tree is gone. -/
def reset_state (s : Store) : Store :=
  { s with _db := none, disk := none }

end Store

/-- Modelled from the spec: §7's `EngineOpenError`, the failure of the
(external) engine's open, carrying the path it was opened at and the
underlying cause.  The source's `_open_db` invokes the engine constructor
directly and adds no handling of its own. -/
structure EngineOpenError where
  path : String
  cause : String
deriving DecidableEq

namespace Store

/-- `_open_db` against a fallible engine: the engine constructor `eng` is
invoked once, at the store's path, with the derived options. -/
def _open_db_E (eng : String → Options → Except EngineOpenError DB)
    (s : Store) : Except EngineOpenError DB :=
  eng s.path s.options

/-- The `db` property over the fallible engine open: a cached handle is
returned as is; otherwise one open is attempted and its failure propagates
unchanged to the caller. -/
def dbE (eng : String → Options → Except EngineOpenError DB)
    (s : Store) : Except EngineOpenError (Store × Handle) :=
  match s._db with
  | some h => Except.ok (s, h)
  | none =>
      match s._open_db_E eng with
      | Except.error e => Except.error e
      | Except.ok d =>
          let h : Handle :=
            { hid := s.openCount
              path := s.path
              opts := s.options
              contents := d }
          Except.ok ({ s with
              _db := some h
              disk := some d
              openCount := s.openCount + 1 }, h)

end Store

/-!
Helper lemmas about the lazy handle.
-/

namespace Store

theorem db_fst_db (s : Store) : ((s.db).1)._db = some ((s.db).2) := by
  cases h : s._db with
  | some hd => simp [Store.db, h]
  | none => simp [Store.db, h]

theorem db_snd_contents (s : Store) : ((s.db).2).contents = s.contents := by
  cases h : s._db with
  | some hd => simp [Store.db, Store.contents, h]
  | none => simp [Store.db, Store.contents, h, Store._open_db]

theorem withContents_contents (s : Store) (d : DB) :
    ((s.db).1.withContents d).contents = d := by
  cases h : s._db with
  | some hd => simp [Store.db, Store.withContents, Store.contents, h]
  | none => simp [Store.db, Store.withContents, Store.contents, h]

theorem withContents_db (s : Store) (d : DB) :
    ((s.db).1.withContents d).db
      = ((s.db).1.withContents d, { (s.db).2 with contents := d }) := by
  cases h : s._db with
  | some hd => simp [Store.db, Store.withContents, h]
  | none => simp [Store.db, Store.withContents, h]

theorem withContents_withContents (s : Store) (d e : DB) :
    ((s.db).1.withContents d).withContents e = (s.db).1.withContents e := by
  cases h : s._db with
  | some hd => simp [Store.db, Store.withContents, h]
  | none => simp [Store.db, Store.withContents, h]

end Store

/-- The batch of raw message key/value pairs accumulated by the loop of
`apply_changelog_batch`. -/
theorem foldl_puts (batch : List EventT) (init : WriteBatch) :
    batch.foldl
        (fun w event => w ++ [(event.message.key, event.message.value)]) init
      = init ++ batch.map (fun e => (e.message.key, e.message.value)) := by
  induction batch generalizing init with
  | nil => simp
  | cons e batch ih => simp [ih]

/-- `apply_changelog_batch`, written as the one committed write batch. -/
theorem apply_changelog_batch_eq (s : Store) (batch : List EventT)
    (to_key to_value : Bytes → Bytes) :
    s.apply_changelog_batch batch to_key to_value
      = (s.db).1.withContents (dbWrite ((s.db).2).contents
          (batch.map (fun e => (e.message.key, e.message.value)))) := by
  rw [Store.apply_changelog_batch, foldl_puts, List.nil_append]

theorem contents_set (s : Store) (k v : Bytes) :
    (s._set k v).contents = dbPut s.contents k v := by
  show ((s.db).1.withContents (dbPut ((s.db).2).contents k v)).contents = _
  rw [Store.withContents_contents, Store.db_snd_contents]

theorem contents_foldl_set (l : List (Bytes × Bytes)) (s : Store) :
    (l.foldl (fun s p => s._set p.1 p.2) s).contents = dbWrite s.contents l := by
  induction l generalizing s with
  | nil => rfl
  | cons p l ih =>
      show (l.foldl _ (s._set p.1 p.2)).contents = _
      rw [ih, contents_set]
      rfl

/-- The last put of a batch assigns a value exactly to the batch's keys. -/
theorem lastVal_isSome_iff (l : WriteBatch) (k : Bytes) :
    (lastVal l k).isSome = true ↔ k ∈ l.map Prod.fst := by
  induction l with
  | nil => simp [lastVal]
  | cons p l ih =>
      simp only [lastVal, List.map_cons, List.mem_cons]
      cases h : lastVal l k with
      | some v =>
          have hk : k ∈ l.map Prod.fst := ih.mp (by rw [h]; rfl)
          simp [hk]
      | none =>
          have hnot : ¬ k ∈ l.map Prod.fst := by
            rw [← ih, h]
            simp
          by_cases hk : p.1 = k
          · rw [if_pos hk]
            simp only [Option.isSome_some]
            constructor
            · intro _
              exact Or.inl hk.symm
            · intro _
              trivial
          · rw [if_neg hk]
            simp only [Option.isSome_none]
            constructor
            · intro hx
              exact absurd hx Bool.false_ne_true
            · intro hx
              rcases hx with hx | hx
              · exact absurd hx.symm hk
              · exact absurd hx hnot

/-!
Concrete stores used to instantiate the theorems, built with the Python
default tuning values (`max_open_files=300000`, `write_buffer_size=67108864`,
`max_write_buffer_number=3`, `target_file_size_base=67108864`,
`block_cache_size=2*1024**3`, `block_cache_compressed_size=500*1024**2`,
`bloom_filter_size=10`).
-/

/-- A just-constructed store for table `"t"`: no handle, no directory. -/
def freshStore : Store :=
  Store.init "" "t" "/tables" 300000 67108864 3 67108864
    (2 * 1024 ^ 3) (500 * 1024 ^ 2) 10 none

/-- A store whose directory holds the single committed entry
`([1], [2])`. -/
def sampleStore : Store :=
  Store.init "" "t" "/tables" 300000 67108864 3 67108864
    (2 * 1024 ^ 3) (500 * 1024 ^ 2) 10 (some [([1], [2])])

/-- One changelog event carrying key bytes `[1]` and value bytes `[2]`. -/
def sampleEvent : EventT := { message := { key := [1], value := [2] } }

/-- The store obtained by inserting the pairs of `l`, in order, into a fresh
store. -/
def storeOfInserts (l : List (Bytes × Bytes)) : Store :=
  l.foldl (fun s p => s._set p.1 p.2) freshStore

/-- An engine whose open always fails with a lock-contention error at the
path it was asked to open. -/
def failEng : String → Options → Except EngineOpenError DB :=
  fun p _ => Except.error { path := p, cause := "IO error: lock held" }

theorem pySuffixStart_bounds {name : List Char} {i : Nat}
    (h : pySuffixStart name = some i) : 0 < i ∧ i < name.length - 1 := by
  simp only [pySuffixStart] at h
  cases hl : ((List.range name.length).filter
      (fun j => name.getD j ' ' = '.')).getLast? with
  | none =>
      rw [hl] at h
      cases h
  | some j =>
      rw [hl] at h
      have h' : (if 0 < j ∧ j < name.length - 1 then some j else none)
          = some i := h
      by_cases hj : 0 < j ∧ j < name.length - 1
      · rw [if_pos hj] at h'
        injection h' with h2
        subst h2
        exact hj
      · rw [if_neg hj] at h'
        cases h'

/-- A name whose pathlib suffix is empty has no accepted suffix start. -/
theorem pySuffix_eq_empty {name : String} (h : pySuffix name = "") :
    pySuffixStart name.data = none := by
  cases hs : pySuffixStart name.data with
  | none => rfl
  | some i =>
      exfalso
      obtain ⟨h1, h2⟩ := pySuffixStart_bounds hs
      simp only [pySuffix, hs] at h
      have hd : name.data.drop i = [] := congrArg String.data h
      have hlen := congrArg List.length hd
      rw [List.length_drop] at hlen
      simp only [List.length_nil] at hlen
      omega

theorem withContents_db_fst (s : Store) (d : DB) :
    (((s.db).1.withContents d).db).1 = (s.db).1.withContents d := by
  rw [Store.withContents_db]

theorem withContents_db_isSome (s : Store) (d : DB) :
    (((s.db).1.withContents d)._db).isSome = true := by
  cases h : s._db <;> simp [Store.db, Store.withContents, h]

/-!
The claims.
-/

/-- C1 (amended): `apply_changelog_batch` accepts the two transform
functions but never applies them — the result does not depend on them and
each record's raw message key/value bytes are what gets written; it does
commit all resulting mutations as one single batch against the engine
handle, which is open afterwards. -/
theorem C1_apply_changelog_batch_raw (s : Store) (batch : List EventT)
    (to_key to_value to_key' to_value' : Bytes → Bytes) :
    s.apply_changelog_batch batch to_key to_value
        = s.apply_changelog_batch batch to_key' to_value'
    ∧ (s.apply_changelog_batch batch to_key to_value).contents
        = dbWrite s.contents
            (batch.map (fun e => (e.message.key, e.message.value)))
    ∧ ((s.apply_changelog_batch batch to_key to_value)._db).isSome
        = true := by
  refine ⟨rfl, ?_, ?_⟩
  · rw [apply_changelog_batch_eq, Store.withContents_contents,
      Store.db_snd_contents]
  · rw [apply_changelog_batch_eq]
    exact withContents_db_isSome s _

/-- C1 fails as stated: for the event `([1], [2])` and transforms mapping
every key to `[7]` and every value to `[8]`, the committed contents keep the
raw bytes instead of the transformed bytes the spec describes. -/
theorem C1_counterexample :
    (freshStore.apply_changelog_batch [sampleEvent]
        (fun _ => [7]) (fun _ => [8])).contents
      ≠ (Store.apply_changelog_batch_spec freshStore [sampleEvent]
        (fun _ => [7]) (fun _ => [8])).contents := by
  decide

/-- C2: `_contains` returns false without a lookup when the probe denies the
key, resolves a positive probe through a real lookup, and — whenever the
probe has no false negatives on the store's contents — answers true exactly
for the keys whose value is actually present, so probe false positives still
resolve to false. -/
theorem C2_contains_probe (s : Store) (key_may_exist : Bytes → Bool)
    (hprobe : ∀ k, (dbGet s.contents k).isSome = true →
      key_may_exist k = true)
    (key : Bytes) :
    (key_may_exist key = false →
      (s._contains key_may_exist key).2 = false)
    ∧ (key_may_exist key = true →
      (s._contains key_may_exist key).2 = (dbGet s.contents key).isSome)
    ∧ ((s._contains key_may_exist key).2 = true
      ↔ (dbGet s.contents key).isSome = true) := by
  have hc : (s._contains key_may_exist key).2
      = if key_may_exist key then (dbGet s.contents key).isSome
        else false := by
    show (if key_may_exist key
        then ((s.db).1, (dbGet ((s.db).2).contents key).isSome)
        else ((s.db).1, false)).2 = _
    by_cases hkme : key_may_exist key = true
    · rw [if_pos hkme, if_pos hkme, Store.db_snd_contents]
    · rw [if_neg hkme, if_neg hkme]
  refine ⟨?_, ?_, ?_⟩
  · intro hf
    rw [hc, hf]
    rfl
  · intro ht
    rw [hc, ht]
    rfl
  · constructor
    · intro htrue
      rw [hc] at htrue
      by_cases hkme : key_may_exist key = true
      · rw [if_pos hkme] at htrue
        exact htrue
      · rw [if_neg hkme] at htrue
        exact absurd htrue Bool.false_ne_true
    · intro hsome
      rw [hc, hprobe key hsome, if_pos rfl]
      exact hsome

/-- C2 witness: on the store holding `([1], [2])` with an always-positive
probe, `_contains` answers true exactly when the value is found. -/
theorem C2_contains_probe_witness :
    (sampleStore._contains (fun _ => true) [1]).2 = true
      ↔ (dbGet sampleStore.contents [1]).isSome = true :=
  (C2_contains_probe sampleStore (fun _ => true) (fun _ _ => rfl) [1]).2.2

/-- C3: applying the same changelog batch twice in a row yields the same
final store state as applying it once, provided the store's contents satisfy
the engine's ascending-key invariant. -/
theorem C3_apply_changelog_batch_idem (s : Store) (batch : List EventT)
    (to_key to_value : Bytes → Bytes) (h : dbSorted s.contents) :
    (s.apply_changelog_batch batch to_key to_value).apply_changelog_batch
        batch to_key to_value
      = s.apply_changelog_batch batch to_key to_value := by
  rw [apply_changelog_batch_eq s, Store.db_snd_contents s,
    apply_changelog_batch_eq, Store.db_snd_contents,
    Store.withContents_contents, dbWrite_idem _ _ h, withContents_db_fst,
    Store.withContents_withContents]

/-- C3 witness: replaying the one-event batch on the store holding
`([1], [2])` is idempotent. -/
theorem C3_apply_changelog_batch_idem_witness :
    (sampleStore.apply_changelog_batch [sampleEvent]
        id id).apply_changelog_batch [sampleEvent] id id
      = sampleStore.apply_changelog_batch [sampleEvent] id id :=
  C3_apply_changelog_batch_idem sampleStore [sampleEvent] id id (by decide)

/-- C4: the handle is absent at construction, the first access to `db` opens
the engine at the store's path with the derived options and bumps the open
count, and a second access returns the very same cached handle with the
state unchanged. -/
theorem C4_lazy_open :
    (∀ url_path table_name tabledir a b c d e f g disk,
        (Store.init url_path table_name tabledir a b c d e f g disk)._db
          = none)
    ∧ ∀ s : Store, s._db = none →
        ((s.db).1)._db = some ((s.db).2)
        ∧ ((s.db).2).path = s.path
        ∧ ((s.db).2).opts = s.options
        ∧ ((s.db).1).openCount = s.openCount + 1
        ∧ ((s.db).1).db = ((s.db).1, (s.db).2) := by
  constructor
  · intro u tn td a b c d e f g disk
    rfl
  · intro s h
    have hd : s.db = ({ s with
        _db := some s._open_db
        disk := some (s.disk.getD [])
        openCount := s.openCount + 1 }, s._open_db) := by
      simp [Store.db, h]
    rw [hd]
    exact ⟨rfl, rfl, rfl, rfl, rfl⟩

/-- C4 witness: the fresh store opens once and then returns the cached
handle. -/
theorem C4_lazy_open_witness :
    ((freshStore.db).1)._db = some ((freshStore.db).2)
    ∧ ((freshStore.db).2).path = freshStore.path
    ∧ ((freshStore.db).2).opts = freshStore.options
    ∧ ((freshStore.db).1).openCount = freshStore.openCount + 1
    ∧ ((freshStore.db).1).db = ((freshStore.db).1, (freshStore.db).2) :=
  C4_lazy_open.2 freshStore rfl

/-- C5: `reset_state` always succeeds — also when the directory does not
exist — discarding the handle reference and the whole directory tree, and
the next lazy open yields a store with zero entries. -/
theorem C5_reset_state (s : Store) :
    s.reset_stateE = Except.ok s.reset_state
    ∧ (s.reset_state)._db = none
    ∧ (s.reset_state).disk = none
    ∧ ((s.reset_state)._size).2 = 0 := by
  refine ⟨?_, rfl, rfl, rfl⟩
  cases h : s.disk with
  | none => simp [Store.reset_stateE, Store.reset_state, rmtree, h]
  | some d => simp [Store.reset_stateE, Store.reset_state, rmtree, h]

/-- C6: a `_set` followed by a `_get` of the same key returns the value just
written. -/
theorem C6_set_get_roundtrip (s : Store) (k v : Bytes) :
    ((s._set k v)._get k).2 = some v := by
  show dbGet ((((s.db).1.withContents
      (dbPut ((s.db).2).contents k v)).db).2).contents k = some v
  rw [Store.db_snd_contents, Store.withContents_contents, dbGet_dbPut_self]

/-- C7: after any sequence of inserts into a fresh store, the keys-only
iteration is strictly ascending in byte order, has no duplicates, contains
exactly the inserted keys, and the values-only and key/value iterations
follow the same order. -/
theorem C7_iteration_order (l : List (Bytes × Bytes)) :
    ((storeOfInserts l)._iterkeys).2.Pairwise
        (fun a b => bytesLt a b = true)
    ∧ ((storeOfInserts l)._iterkeys).2.Nodup
    ∧ (∀ k, k ∈ ((storeOfInserts l)._iterkeys).2 ↔ k ∈ l.map Prod.fst)
    ∧ ((storeOfInserts l)._iterkeys).2
        = ((storeOfInserts l)._iteritems).2.map Prod.fst
    ∧ ((storeOfInserts l)._itervalues).2
        = ((storeOfInserts l)._iteritems).2.map Prod.snd := by
  have hco : (storeOfInserts l).contents = dbWrite [] l :=
    contents_foldl_set l freshStore
  have hsorted : dbSorted (dbWrite [] l) :=
    dbSorted_dbWrite l dbSorted_nil
  have hkeys : ((storeOfInserts l)._iterkeys).2
      = (dbWrite [] l).map Prod.fst := by
    show (((storeOfInserts l).db).2).contents.map Prod.fst = _
    rw [Store.db_snd_contents, hco]
  have hpair : ((storeOfInserts l)._iterkeys).2.Pairwise
      (fun a b => bytesLt a b = true) := by
    rw [hkeys, List.pairwise_map]
    exact hsorted
  refine ⟨hpair, ?_, ?_, rfl, rfl⟩
  · exact hpair.imp (fun hlt => bytesLt_ne hlt)
  · intro k
    rw [hkeys, ← dbGet_isSome_iff, dbGet_dbWrite, ← lastVal_isSome_iff]
    cases lastVal l k <;> simp [dbGet]

/-- C8: when the engine cannot be opened and reports an `EngineOpenError`
carrying the path it was invoked at, the lazy open of a closed store
surfaces exactly that error to the caller, and the error carries the
store's path. -/
theorem C8_engine_open_error
    (eng : String → Options → Except EngineOpenError DB) (s : Store)
    (e : EngineOpenError) (hclosed : s._db = none)
    (hpath : ∀ p o err, eng p o = Except.error err → err.path = p)
    (hfail : eng s.path s.options = Except.error e) :
    s.dbE eng = Except.error e ∧ e.path = s.path := by
  constructor
  · simp [Store.dbE, hclosed, Store._open_db_E, hfail]
  · exact hpath _ _ _ hfail

/-- C8 witness: the fresh store surfaces the lock-contention error of
`failEng`, which carries the store's path. -/
theorem C8_engine_open_error_witness :
    freshStore.dbE failEng = Except.error
        { path := freshStore.path, cause := "IO error: lock held" }
    ∧ ({ path := freshStore.path, cause := "IO error: lock held"
        } : EngineOpenError).path = freshStore.path :=
  C8_engine_open_error failEng freshStore _ rfl
    (fun p o err h => by
      injection h with h2
      rw [← h2])
    rfl

/-- C9 (amended): the store's directory is `tabledir / filename` where
`filename` is `Path(url.path).with_suffix('.db')` — the `.db` suffix
replaces an existing dotted suffix of the name and is appended exactly when
the name has no suffix; a URL without a path gets the table name as its
path. -/
theorem C9_filename_path :
    (∀ table_name tabledir a b c d e f g disk,
        (Store.init "" table_name tabledir a b c d e f g disk).url_path
          = table_name)
    ∧ ∀ s : Store,
        s.filename = pyWithSuffix s.url_path ".db"
        ∧ (pySuffix s.url_path = "" →
            s.filename = s.url_path ++ ".db")
        ∧ s.path = pathJoin s.tabledir s.filename := by
  constructor
  · intro tn td a b c d e f g disk
    rfl
  · intro s
    refine ⟨rfl, ?_, rfl⟩
    intro h
    rw [Store.filename, pyWithSuffix, pySuffix_eq_empty h]

/-- C9 fails as stated: for a table name with a dotted suffix, `.db` is not
appended to the full name — `with_suffix` replaces the old suffix, so table
`"t.v1"` lives in directory `"t.db"`. -/
theorem C9_counterexample :
    (Store.init "" "t.v1" "/tables" 300000 67108864 3 67108864
        (2 * 1024 ^ 3) (500 * 1024 ^ 2) 10 none).filename = "t.db"
    ∧ (Store.init "" "t.v1" "/tables" 300000 67108864 3 67108864
        (2 * 1024 ^ 3) (500 * 1024 ^ 2) 10 none).filename ≠ "t.v1.db" := by
  constructor
  · decide
  · decide

/-- C9 witness: for the dot-free table name `"t"` the suffix is empty and
the directory name is `"t.db"`, the name plus the fixed suffix. -/
theorem C9_filename_path_witness :
    freshStore.filename = freshStore.url_path ++ ".db" :=
  ((C9_filename_path.2 freshStore).2.1) (by decide)

/-- C10: an empty changelog batch commits an empty write batch — every
key's value is unchanged — yet still forces the lazy engine open on a store
whose handle is not yet open. -/
theorem C10_empty_batch (s : Store) (to_key to_value : Bytes → Bytes)
    (h : s._db = none) :
    (∀ k, dbGet (s.apply_changelog_batch [] to_key to_value).contents k
        = dbGet s.contents k)
    ∧ ((s.apply_changelog_batch [] to_key to_value)._db).isSome = true
    ∧ (s.apply_changelog_batch [] to_key to_value).openCount
        = s.openCount + 1 := by
  have hcon : (s.apply_changelog_batch [] to_key to_value).contents
      = s.contents := by
    rw [apply_changelog_batch_eq, Store.withContents_contents,
      Store.db_snd_contents]
    rfl
  refine ⟨fun k => by rw [hcon], ?_, ?_⟩
  · rw [apply_changelog_batch_eq]
    exact withContents_db_isSome s _
  · rw [apply_changelog_batch_eq]
    cases hdb : s._db with
    | some hd => cases (Option.some_ne_none hd (hdb ▸ h))
    | none => simp [Store.db, Store.withContents, hdb]

/-- C10 witness: the empty batch on a fresh closed store changes no value
and leaves the handle open with the open count bumped. -/
theorem C10_empty_batch_witness :
    dbGet (freshStore.apply_changelog_batch [] id id).contents [3]
        = dbGet freshStore.contents [3]
    ∧ ((freshStore.apply_changelog_batch [] id id)._db).isSome = true
    ∧ (freshStore.apply_changelog_batch [] id id).openCount
        = freshStore.openCount + 1 :=
  ⟨(C10_empty_batch freshStore id id rfl).1 [3],
    (C10_empty_batch freshStore id id rfl).2⟩

end Faust
